import Mathlib

/-!
Verification development for the storage-log DAL of the zksync-era node
(`core/lib/dal/src/storage_logs_dal.rs`).

The relational tables are embedded shallowly:
- the `storage_logs` table is a `List LogEntry`;
- the `initial_writes` table (dedup index) is a `List InitialWrite`;
- the block resolver (`get_miniblock_range_of_l1_batch`, which lives in
  `blocks_dal.rs`, outside the verified sources) is an oracle function
  `Nat → Option (Nat × Nat)` returning the inclusive miniblock range of a
  batch, exactly the shape of its `Option<(MiniblockNumber, MiniblockNumber)>`
  return type.

H256 values (hashed keys, stored values, tx hashes) are embedded as `Nat`;
byte-lexicographic order on fixed-width digests coincides with numeric order.
Rust panics (`unwrap` on a missing value) are modelled by an `Option` result
being `none`; database faults are outside the model (the substrate is assumed
reliable, as the spec states).
-/

namespace StorageLogs

/-- A row of the `storage_logs` table. The `address`/`key` columns (preimage of
the hashed key) play no role in any verified operation and are omitted. -/
structure LogEntry where
  hashed_key : Nat
  value : Nat
  miniblock_number : Nat
  operation_number : Nat
  tx_hash : Nat
  deriving DecidableEq

/-- A row of the `initial_writes` table: the batch and leaf index at which the
key was first ever written (after dedup). At most one row exists per key. -/
structure InitialWrite where
  hashed_key : Nat
  l1_batch_number : Nat
  index : Nat
  deriving DecidableEq

/-- One storage write inside a transaction (Rust `StorageLog`, reduced to the
fields the log store persists and queries). -/
structure Write where
  hashed_key : Nat
  value : Nat
  deriving DecidableEq

/-- Result row of the recovery queries: a key joined with its value and its
dedup leaf index (Rust `StorageRecoveryLogEntry`). -/
structure StorageRecoveryLogEntry where
  key : Nat
  value : Nat
  leaf_index : Nat
  deriving DecidableEq

/-- Strict order on write positions: the SQL ordering
`miniblock_number DESC, operation_number DESC` reads entry `b` before entry `a`
exactly when `logPosLt a b`. -/
def logPosLt (a b : LogEntry) : Prop :=
  a.miniblock_number < b.miniblock_number ∨
    (a.miniblock_number = b.miniblock_number ∧ a.operation_number < b.operation_number)

instance instDecidableLogPosLt (a b : LogEntry) : Decidable (logPosLt a b) :=
  inferInstanceAs (Decidable (a.miniblock_number < b.miniblock_number ∨
    (a.miniblock_number = b.miniblock_number ∧ a.operation_number < b.operation_number)))

/-- The inner subquery of `get_storage_values`: among rows with the given
hashed key and `miniblock_number <= n`, the row that comes first under
`ORDER BY miniblock_number DESC, operation_number DESC` (`LIMIT 1`); ties on
the full `(miniblock, operation)` position are broken arbitrarily by SQL and
here in favour of the later row of the table. -/
def pickLater (e : LogEntry) : Option LogEntry → Option LogEntry
  | none => some e
  | some m => if logPosLt m e then some e else some m

def latestLogAt : List LogEntry → Nat → Nat → Option LogEntry
  | [], _, _ => none
  | e :: rest, n, k =>
    if e.hashed_key = k ∧ e.miniblock_number ≤ n then pickLater e (latestLogAt rest n k)
    else latestLogAt rest n k

/-- Value of a key as of miniblock `n` (the `value` column of the row selected
by the `get_storage_values` subquery). -/
def resolveValue (logs : List LogEntry) (n k : Nat) : Option Nat :=
  (latestLogAt logs n k).map fun e => e.value

/-- Model of `get_storage_values`: one output pair per requested key (the SQL
unnests the key array, so every requested key yields a row), mapping the key to
the latest value at the given miniblock, or `none` when the key has no log row
at or before that miniblock. -/
def get_storage_values (logs : List LogEntry) (hashed_keys : List Nat)
    (miniblock_number : Nat) : List (Nat × Option Nat) :=
  hashed_keys.map fun k => (k, resolveValue logs miniblock_number k)

/-- Model of `get_previous_storage_values`. The Rust code unwraps the miniblock
range of `next_l1_batch`; a missing range therefore panics, modelled as `none`.
Otherwise, a first miniblock of 0 short-circuits every key to absent, and any
other first miniblock delegates to `get_storage_values` one miniblock earlier. -/
def get_previous_storage_values (logs : List LogEntry)
    (resolver : Nat → Option (Nat × Nat)) (hashed_keys : List Nat)
    (next_l1_batch : Nat) : Option (List (Nat × Option Nat)) :=
  match resolver next_l1_batch with
  | none => none
  | some (first_miniblock, _) =>
    if first_miniblock = 0 then
      some (hashed_keys.map fun k => (k, none))
    else
      some (get_storage_values logs hashed_keys (first_miniblock - 1))

/-- Row lookup in the `initial_writes` table, as performed (batched) by
`get_l1_batches_and_indices_for_initial_writes`: the batch number and leaf
index of the key's dedup record, if any. -/
def firstWriteOf (iw : List InitialWrite) (k : Nat) : Option (Nat × Nat) :=
  (iw.find? fun r => r.hashed_key == k).map fun r => (r.l1_batch_number, r.index)

/-- Model of `modified_keys_since_miniblock`: the distinct hashed keys having
at least one log row with a strictly greater miniblock number. -/
def modified_keys_since_miniblock (logs : List LogEntry) (miniblock_number : Nat) :
    List Nat :=
  ((logs.filter fun e => decide (miniblock_number < e.miniblock_number)).map
    fun e => e.hashed_key).dedup

/-- The branch of the `modified_keys.retain` loop in
`get_storage_logs_for_revert` that classifies one key: a key with no dedup
record is dropped, a key first written after the target batch becomes a
`(key, None)` (delete) plan entry, and any other key is left for the restore
pass (so contributes nothing here). -/
def deleteEntryFor (iw : List InitialWrite) (l1_batch_number k : Nat) :
    Option (Nat × Option (Nat × Nat)) :=
  match firstWriteOf iw k with
  | none => none
  | some (write_batch, _) =>
    if l1_batch_number < write_batch then some (k, none) else none

/-- The delete portion of the revert plan, over the modified-keys set. -/
def revertDeletes (iw : List InitialWrite) (l1_batch_number : Nat)
    (keys : List Nat) : List (Nat × Option (Nat × Nat)) :=
  keys.filterMap (deleteEntryFor iw l1_batch_number)

/-- Whether the `retain` loop of `get_storage_logs_for_revert` keeps the key
for the restore pass: its dedup record exists and its batch is at most the
target batch. -/
def isRestoreKey (iw : List InitialWrite) (l1_batch_number k : Nat) : Bool :=
  match firstWriteOf iw k with
  | none => false
  | some (write_batch, _) => decide (write_batch ≤ l1_batch_number)

/-- The keys kept by the `retain` loop for the restore pass. -/
def revertRestoreKeys (iw : List InitialWrite) (l1_batch_number : Nat)
    (keys : List Nat) : List Nat :=
  keys.filter (isRestoreKey iw l1_batch_number)

/-- The restore portion of the revert plan: for each kept key, the Rust code
unwraps the value returned by `get_storage_values` at the last retained
miniblock and indexes the dedup map; either being absent panics, modelled by
the whole computation collapsing to `none`. -/
def revertRestores (logs : List LogEntry) (iw : List InitialWrite)
    (last_miniblock : Nat) : List Nat → Option (List (Nat × Option (Nat × Nat)))
  | [] => some []
  | k :: ks =>
    match resolveValue logs last_miniblock k, firstWriteOf iw k with
    | some v, some (_, idx) =>
      (revertRestores logs iw last_miniblock ks).map fun rest =>
        (k, some (v, idx)) :: rest
    | _, _ => none

/-- Model of `get_storage_logs_for_revert`. The plan is an association list
modelling the returned `HashMap<H256, Option<(H256, u64)>>`: a key mapped to
`none` must be deleted, a key mapped to `some (value, leaf_index)` must be
restored; `none` as the overall result models a panic (a restore key whose
value or dedup record is missing). An absent miniblock range yields the empty
plan. -/
def get_storage_logs_for_revert (logs : List LogEntry) (iw : List InitialWrite)
    (resolver : Nat → Option (Nat × Nat)) (l1_batch_number : Nat) :
    Option (List (Nat × Option (Nat × Nat))) :=
  match resolver l1_batch_number with
  | none => some []
  | some (_, last_miniblock) =>
    let modified := modified_keys_since_miniblock logs last_miniblock
    match revertRestores logs iw last_miniblock
        (revertRestoreKeys iw l1_batch_number modified) with
    | none => none
    | some restores => some (revertDeletes iw l1_batch_number modified ++ restores)

/-- The `SELECT MAX(operation_number) ... WHERE miniblock_number = block` query
of `append_storage_logs`. -/
def pushMax (x : Nat) : Option Nat → Option Nat
  | none => some x
  | some m => some (max m x)

def maxOpAt : List LogEntry → Nat → Option Nat
  | [], _ => none
  | e :: rest, block_number =>
    if e.miniblock_number = block_number then
      pushMax e.operation_number (maxOpAt rest block_number)
    else maxOpAt rest block_number

/-- The base operation number chosen by `append_storage_logs`: 0 for a block
with no rows yet, otherwise one past the current maximum. -/
def appendBase (logs : List LogEntry) (block_number : Nat) : Nat :=
  match maxOpAt logs block_number with
  | none => 0
  | some m => m + 1

/-- The nested iteration order of `insert_storage_logs_inner`: all writes of
each transaction in turn, each paired with its transaction hash. -/
def flattenWrites (txs : List (Nat × List Write)) : List (Nat × Write) :=
  txs.flatMap fun p => p.2.map fun w => (p.1, w)

/-- The row written for one storage log by `insert_storage_logs_inner`. -/
def mkEntry (tx : Nat) (w : Write) (block_number base : Nat) : LogEntry :=
  { hashed_key := w.hashed_key, value := w.value, miniblock_number := block_number,
    operation_number := base, tx_hash := tx }

/-- The rows produced by `insert_storage_logs_inner`: consecutive operation
numbers starting at `base`, all at the given miniblock. -/
def numberWrites (block_number base : Nat) : List (Nat × Write) → List LogEntry
  | [] => []
  | (tx, w) :: rest =>
    mkEntry tx w block_number base :: numberWrites block_number (base + 1) rest

/-- Model of `insert_storage_logs_inner`: bulk insertion of the numbered rows
into the table. -/
def insert_storage_logs_inner (logs : List LogEntry) (block_number : Nat)
    (txs : List (Nat × List Write)) (operation_number : Nat) : List LogEntry :=
  logs ++ numberWrites block_number operation_number (flattenWrites txs)

/-- Model of `append_storage_logs`: insertion starting at the computed base
operation number. -/
def append_storage_logs (logs : List LogEntry) (block_number : Nat)
    (txs : List (Nat × List Write)) : List LogEntry :=
  insert_storage_logs_inner logs block_number txs (appendBase logs block_number)

/-- Value of the last write to key `k` in a flattened write sequence, if any. -/
def lastValueIn (ws : List (Nat × Write)) (k : Nat) : Option Nat :=
  match ws with
  | [] => none
  | (_, w) :: rest =>
    match lastValueIn rest k with
    | some v => some v
    | none => if w.hashed_key = k then some w.value else none

/-- Model of `rollback_storage_logs`: the table contents after
`DELETE ... WHERE miniblock_number > block_number`. -/
def rollback_storage_logs (logs : List LogEntry) (block_number : Nat) :
    List LogEntry :=
  logs.filter fun e => decide (e.miniblock_number ≤ block_number)

/-- The inner subquery of `get_chunk_starts_for_miniblock`: among rows with
`miniblock_number = n` and hashed key within `[lo, hi]`, the row coming first
under `ORDER BY hashed_key` (`LIMIT 1`); SQL breaks key ties arbitrarily,
here by the lower operation number. -/
def keyLexLt (a b : LogEntry) : Prop :=
  a.hashed_key < b.hashed_key ∨
    (a.hashed_key = b.hashed_key ∧ a.operation_number < b.operation_number)

instance instDecidableKeyLexLt (a b : LogEntry) : Decidable (keyLexLt a b) :=
  inferInstanceAs (Decidable (a.hashed_key < b.hashed_key ∨
    (a.hashed_key = b.hashed_key ∧ a.operation_number < b.operation_number)))

def pickSmaller (e : LogEntry) : Option LogEntry → Option LogEntry
  | none => some e
  | some m => if keyLexLt e m then some e else some m

def smallestLogIn : List LogEntry → Nat → Nat → Nat → Option LogEntry
  | [], _, _, _ => none
  | e :: rest, n, lo, hi =>
    if e.miniblock_number = n ∧ lo ≤ e.hashed_key ∧ e.hashed_key ≤ hi then
      pickSmaller e (smallestLogIn rest n lo hi)
    else smallestLogIn rest n lo hi

/-- One output row of `get_chunk_starts_for_miniblock`: the smallest in-range
row at the miniblock, left-joined with `initial_writes`; the Rust code chains
`row.hashed_key.as_ref()?`, `row.value.as_ref()?` and `row.index?`, so a range
with no row, or a smallest row whose key has no dedup record, both yield
`None`. -/
def chunkStart (logs : List LogEntry) (iw : List InitialWrite) (n : Nat)
    (r : Nat × Nat) : Option StorageRecoveryLogEntry :=
  match smallestLogIn logs n r.1 r.2 with
  | none => none
  | some e =>
    match firstWriteOf iw e.hashed_key with
    | none => none
    | some (_, idx) => some { key := e.hashed_key, value := e.value, leaf_index := idx }

/-- Model of `get_chunk_starts_for_miniblock`: one optional starting entry per
supplied inclusive key range. -/
def get_chunk_starts_for_miniblock (logs : List LogEntry) (iw : List InitialWrite)
    (miniblock_number : Nat) (key_ranges : List (Nat × Nat)) :
    List (Option StorageRecoveryLogEntry) :=
  key_ranges.map fun r => chunkStart logs iw miniblock_number r

/-- Insertion into a list kept sorted by key (the model of the SQL
`ORDER BY hashed_key` of `get_tree_entries_for_miniblock`). -/
def insertByKey (x : StorageRecoveryLogEntry) :
    List StorageRecoveryLogEntry → List StorageRecoveryLogEntry
  | [] => [x]
  | y :: ys => if x.key ≤ y.key then x :: y :: ys else y :: insertByKey x ys

/-- Sorting by key via repeated insertion. -/
def sortByKey : List StorageRecoveryLogEntry → List StorageRecoveryLogEntry
  | [] => []
  | x :: xs => insertByKey x (sortByKey xs)

/-- Model of `get_tree_entries_for_miniblock`: the rows with
`miniblock_number = n` and hashed key within `[lo, hi]`, inner-joined with
`initial_writes` (a row whose key has no dedup record produces no output row),
ordered by hashed key. -/
def get_tree_entries_for_miniblock (logs : List LogEntry) (iw : List InitialWrite)
    (miniblock_number lo hi : Nat) : List StorageRecoveryLogEntry :=
  sortByKey ((logs.filter fun e =>
      decide (e.miniblock_number = miniblock_number ∧
        lo ≤ e.hashed_key ∧ e.hashed_key ≤ hi)).filterMap
    fun e => (firstWriteOf iw e.hashed_key).map fun p =>
      { key := e.hashed_key, value := e.value, leaf_index := p.2 })

/-! ### Concrete fixtures used by witnesses -/

/-- Fixture ledger: key 1 written in miniblocks 1 and 2, keys 2 and 3 written
only in miniblock 2 (miniblock 1 is batch 1, miniblock 2 is batch 2). -/
def demoRevertLogs : List LogEntry :=
  [⟨1, 10, 1, 0, 0⟩, ⟨1, 20, 2, 0, 0⟩, ⟨2, 30, 2, 1, 0⟩, ⟨3, 40, 2, 2, 0⟩]

/-- Fixture dedup index: key 1 first written in batch 1 (leaf 100), key 2
first written in batch 2 (leaf 200), key 3 fully deduplicated. -/
def demoRevertIW : List InitialWrite := [⟨1, 1, 100⟩, ⟨2, 2, 200⟩]

/-- Fixture block resolver: batch 1 spans exactly miniblock 1. -/
def demoResolver : Nat → Option (Nat × Nat) :=
  fun b => if b = 1 then some (1, 1) else none

/-! ### Basic facts about the write-position order -/

theorem logPosLt_irrefl (a : LogEntry) : ¬ logPosLt a a := by
  simp only [logPosLt]; omega

theorem logPosLt_trans {a b c : LogEntry} (h1 : logPosLt a b) (h2 : logPosLt b c) :
    logPosLt a c := by
  simp only [logPosLt] at *; omega

/-! ### Characterization of the latest-value subquery -/

theorem pickLater_ne_none (e : LogEntry) (r : Option LogEntry) :
    pickLater e r ≠ none := by
  cases r with
  | none => simp [pickLater]
  | some m => simp only [pickLater]; split <;> simp

theorem latestLogAt_spec (n k : Nat) (logs : List LogEntry) :
    (latestLogAt logs n k = none →
      ∀ e ∈ logs, ¬(e.hashed_key = k ∧ e.miniblock_number ≤ n)) ∧
    (∀ m, latestLogAt logs n k = some m →
      (m ∈ logs ∧ m.hashed_key = k ∧ m.miniblock_number ≤ n) ∧
      ∀ e ∈ logs, e.hashed_key = k → e.miniblock_number ≤ n → ¬ logPosLt m e) := by
  induction logs with
  | nil => simp [latestLogAt]
  | cons e rest ih =>
    obtain ⟨ihnone, ihsome⟩ := ih
    constructor
    · intro h
      simp only [latestLogAt] at h
      by_cases hc : e.hashed_key = k ∧ e.miniblock_number ≤ n
      · rw [if_pos hc] at h
        exact absurd h (pickLater_ne_none _ _)
      · rw [if_neg hc] at h
        intro x hx
        rcases List.mem_cons.mp hx with rfl | hx
        · exact hc
        · exact ihnone h x hx
    · intro m h
      simp only [latestLogAt] at h
      by_cases hc : e.hashed_key = k ∧ e.miniblock_number ≤ n
      · rw [if_pos hc] at h
        rcases hr : latestLogAt rest n k with _ | m' <;> rw [hr] at h
        · simp only [pickLater, Option.some.injEq] at h
          subst h
          refine ⟨⟨List.mem_cons_self _ _, hc.1, hc.2⟩, ?_⟩
          intro x hx hxk hxn
          rcases List.mem_cons.mp hx with rfl | hx
          · exact logPosLt_irrefl _
          · exact fun _ => ihnone hr x hx ⟨hxk, hxn⟩
        · simp only [pickLater] at h
          by_cases hlt : logPosLt m' e
          · rw [if_pos hlt] at h
            simp only [Option.some.injEq] at h
            subst h
            obtain ⟨⟨hm'mem, hm'k, hm'n⟩, hmax'⟩ := ihsome m' hr
            refine ⟨⟨List.mem_cons_self _ _, hc.1, hc.2⟩, ?_⟩
            intro x hx hxk hxn hcon
            rcases List.mem_cons.mp hx with rfl | hx
            · exact logPosLt_irrefl _ hcon
            · exact hmax' x hx hxk hxn (logPosLt_trans hlt hcon)
          · rw [if_neg hlt] at h
            simp only [Option.some.injEq] at h
            subst h
            obtain ⟨⟨hm'mem, hm'k, hm'n⟩, hmax'⟩ := ihsome m' hr
            refine ⟨⟨List.mem_cons_of_mem _ hm'mem, hm'k, hm'n⟩, ?_⟩
            intro x hx hxk hxn
            rcases List.mem_cons.mp hx with rfl | hx
            · exact hlt
            · exact hmax' x hx hxk hxn
      · rw [if_neg hc] at h
        obtain ⟨⟨hmem, hk2, hn2⟩, hmax⟩ := ihsome m h
        refine ⟨⟨List.mem_cons_of_mem _ hmem, hk2, hn2⟩, ?_⟩
        intro x hx hxk hxn
        rcases List.mem_cons.mp hx with rfl | hx
        · exact fun _ => hc ⟨hxk, hxn⟩
        · exact hmax x hx hxk hxn

theorem latestLogAt_isSome {logs : List LogEntry} {n k : Nat} (e : LogEntry)
    (he : e ∈ logs) (hk : e.hashed_key = k) (hn : e.miniblock_number ≤ n) :
    ∃ m, latestLogAt logs n k = some m := by
  rcases h : latestLogAt logs n k with _ | m
  · exact absurd ⟨hk, hn⟩ ((latestLogAt_spec n k logs).1 h e he)
  · exact ⟨m, rfl⟩

theorem latestLogAt_eq_of_max {logs : List LogEntry} {n k : Nat} {e : LogEntry}
    (hdist : ∀ e1 ∈ logs, ∀ e2 ∈ logs, e1.hashed_key = e2.hashed_key →
      e1.miniblock_number = e2.miniblock_number →
      e1.operation_number = e2.operation_number → e1 = e2)
    (he : e ∈ logs) (hk : e.hashed_key = k) (hn : e.miniblock_number ≤ n)
    (hmax : ∀ x ∈ logs, x.hashed_key = k → x.miniblock_number ≤ n → ¬ logPosLt e x) :
    latestLogAt logs n k = some e := by
  obtain ⟨m, hm⟩ := latestLogAt_isSome e he hk hn
  obtain ⟨⟨hmem, hmk, hmn⟩, hmmax⟩ := (latestLogAt_spec n k logs).2 m hm
  have h1 : ¬ logPosLt e m := hmax m hmem hmk hmn
  have h2 : ¬ logPosLt m e := hmmax e he hk hn
  have hme : m = e := by
    apply hdist m hmem e he (by rw [hmk, hk])
    · simp only [logPosLt] at h1 h2; omega
    · simp only [logPosLt] at h1 h2; omega
  rw [hm, hme]

theorem latestLogAt_eq_of_strict_max {logs : List LogEntry} {n k : Nat}
    {e : LogEntry} (he : e ∈ logs) (hk : e.hashed_key = k)
    (hn : e.miniblock_number ≤ n)
    (hmax : ∀ x ∈ logs, x.hashed_key = k → x.miniblock_number ≤ n →
      x = e ∨ logPosLt x e) :
    latestLogAt logs n k = some e := by
  obtain ⟨m, hm⟩ := latestLogAt_isSome e he hk hn
  obtain ⟨⟨hmem, hmk, hmn⟩, hmmax⟩ := (latestLogAt_spec n k logs).2 m hm
  rcases hmax m hmem hmk hmn with rfl | hlt
  · exact hm
  · exact absurd hlt (hmmax e he hk hn)

theorem lookup_get_storage_values (logs : List LogEntry) (hashed_keys : List Nat)
    (n k : Nat) (hk : k ∈ hashed_keys) :
    List.lookup k (get_storage_values logs hashed_keys n) =
      some (resolveValue logs n k) := by
  induction hashed_keys with
  | nil => cases hk
  | cons a rest ih =>
    rcases List.mem_cons.mp hk with rfl | hk2
    · simp [get_storage_values, List.lookup]
    · by_cases hak : k = a
      · subst hak; simp [get_storage_values, List.lookup]
      · have hne : (k == a) = false := beq_eq_false_iff_ne.mpr hak
        simpa [get_storage_values, List.lookup, hne] using ih hk2

/-! ### Claim theorems: rollback, previous values, chunk starts without dedup -/

/-- C8: `rollback_storage_logs` deletes exactly the log entries with block
number strictly greater than the cutoff, keeps every entry at or below it, and
is idempotent: applying it twice with the same cutoff equals applying it once. -/
theorem rollback_storage_logs_exact_and_idempotent (logs : List LogEntry)
    (block_number : Nat) :
    (∀ e, e ∈ rollback_storage_logs logs block_number ↔
      e ∈ logs ∧ e.miniblock_number ≤ block_number) ∧
    rollback_storage_logs (rollback_storage_logs logs block_number) block_number =
      rollback_storage_logs logs block_number := by
  constructor
  · intro e; simp [rollback_storage_logs, List.mem_filter]
  · apply List.filter_eq_self.mpr
    intro a ha
    exact (List.mem_filter.mp ha).2

/-- C9: `get_previous_storage_values` unwraps the miniblock range of
`next_l1_batch`, so it panics (modelled as a `none` result) whenever the block
resolver yields no range for that batch — it neither returns an error value nor
treats the missing batch as an all-absent result — and it is panic-free
whenever the range exists. -/
theorem get_previous_storage_values_panics_on_missing_range
    (logs : List LogEntry) (resolver : Nat → Option (Nat × Nat))
    (hashed_keys : List Nat) (next_l1_batch : Nat) :
    (resolver next_l1_batch = none →
      get_previous_storage_values logs resolver hashed_keys next_l1_batch = none) ∧
    (∀ p, resolver next_l1_batch = some p →
      (get_previous_storage_values logs resolver hashed_keys next_l1_batch).isSome) := by
  constructor
  · intro h; simp [get_previous_storage_values, h]
  · rintro ⟨a, b⟩ h
    simp only [get_previous_storage_values, h]
    split <;> simp

/-- Witness for C9: a batch the resolver knows nothing about makes the call
panic. -/
theorem get_previous_storage_values_panics_on_missing_range_witness :
    get_previous_storage_values [] (fun _ => none) [1] 5 = none :=
  (get_previous_storage_values_panics_on_missing_range [] (fun _ => none) [1] 5).1 rfl

/-- C10: whenever the smallest log entry of a range at the given block exists
but its key has no initial-writes record, `get_chunk_starts_for_miniblock`
yields `none` for that range — the same output as for a range in which no key
was ever written — and no consistency fault is reported. -/
theorem chunk_start_missing_dedup_is_silently_absent
    (logs : List LogEntry) (iw : List InitialWrite) (n : Nat) (r : Nat × Nat)
    (e : LogEntry) (hmin : smallestLogIn logs n r.1 r.2 = some e)
    (hfw : firstWriteOf iw e.hashed_key = none) :
    get_chunk_starts_for_miniblock logs iw n [r] = [none] ∧
    get_chunk_starts_for_miniblock [] iw n [r] = [none] := by
  constructor
  · simp [get_chunk_starts_for_miniblock, chunkStart, hmin, hfw]
  · simp [get_chunk_starts_for_miniblock, chunkStart, smallestLogIn]

/-- Witness for C10: one log row at the queried block whose key lacks a dedup
record yields an absent chunk start. -/
theorem chunk_start_missing_dedup_is_silently_absent_witness :
    get_chunk_starts_for_miniblock [⟨5, 7, 1, 0, 0⟩] [] 1 [(0, 10)] = [none] :=
  (chunk_start_missing_dedup_is_silently_absent [⟨5, 7, 1, 0, 0⟩] [] 1 (0, 10)
    ⟨5, 7, 1, 0, 0⟩ (by decide) (by decide)).1

/-! ### Claim theorems: value resolution -/

/-- C2: `get_storage_values` returns an entry for every requested key; a key
with no log entry at or before the given miniblock maps to absent, and
otherwise maps to the value of the log entry with the maximal
`(miniblock_number, operation_number)` among that key's entries at or before
the miniblock (in particular, within one block the highest operation number
wins). The ledger invariant that `(miniblock, operation)` positions determine
entries of a key uniquely is the `hdist` hypothesis. -/
theorem get_storage_values_resolves_max (logs : List LogEntry)
    (hashed_keys : List Nat) (miniblock_number k : Nat)
    (hdist : ∀ e1 ∈ logs, ∀ e2 ∈ logs, e1.hashed_key = e2.hashed_key →
      e1.miniblock_number = e2.miniblock_number →
      e1.operation_number = e2.operation_number → e1 = e2)
    (hk : k ∈ hashed_keys) :
    (List.lookup k (get_storage_values logs hashed_keys miniblock_number)).isSome = true ∧
    ((∀ e ∈ logs, ¬(e.hashed_key = k ∧ e.miniblock_number ≤ miniblock_number)) →
      List.lookup k (get_storage_values logs hashed_keys miniblock_number) = some none) ∧
    (∀ e ∈ logs, e.hashed_key = k → e.miniblock_number ≤ miniblock_number →
      (∀ x ∈ logs, x.hashed_key = k → x.miniblock_number ≤ miniblock_number →
        ¬ logPosLt e x) →
      List.lookup k (get_storage_values logs hashed_keys miniblock_number) =
        some (some e.value)) := by
  have hl := lookup_get_storage_values logs hashed_keys miniblock_number k hk
  refine ⟨by rw [hl]; rfl, ?_, ?_⟩
  · intro hnone
    rcases hm : latestLogAt logs miniblock_number k with _ | m
    · rw [hl]; simp [resolveValue, hm]
    · obtain ⟨⟨hmem, hmk, hmn⟩, _⟩ := (latestLogAt_spec _ _ logs).2 m hm
      exact absurd ⟨hmk, hmn⟩ (hnone m hmem)
  · intro e hmem hek hen hmax
    rw [hl, resolveValue, latestLogAt_eq_of_max hdist hmem hek hen hmax]
    rfl

/-- Witness for C2: key 1 is written twice in miniblock 1 (operations 0 and 1
with values 5 and 9); resolving at miniblock 1 yields the value of the entry
with the higher operation number. -/
theorem get_storage_values_resolves_max_witness :
    List.lookup 1 (get_storage_values [⟨1, 5, 1, 0, 0⟩, ⟨1, 9, 1, 1, 0⟩] [1] 1) =
      some (some 9) :=
  (get_storage_values_resolves_max [⟨1, 5, 1, 0, 0⟩, ⟨1, 9, 1, 1, 0⟩] [1] 1 1
      (by simp [List.forall_mem_cons]) (by decide)).2.2 ⟨1, 9, 1, 1, 0⟩
    (by decide) (by decide) (by decide)
    (by simp [List.forall_mem_cons, logPosLt])

theorem latestLogAt_filter_lt (logs : List LogEntry) (b k : Nat) (hb : 0 < b) :
    latestLogAt (logs.filter fun e => decide (e.miniblock_number < b)) (b - 1) k =
      latestLogAt logs (b - 1) k := by
  induction logs with
  | nil => rfl
  | cons e rest ih =>
    by_cases he : e.miniblock_number < b
    · rw [List.filter_cons_of_pos (by simpa using he)]
      simp only [latestLogAt, ih]
    · rw [List.filter_cons_of_neg (by simpa using he)]
      have hnm : ¬(e.hashed_key = k ∧ e.miniblock_number ≤ b - 1) := by
        intro hcon
        omega
      simp only [latestLogAt, if_neg hnm, ih]

/-- C3: with a resolved miniblock range for `before_batch`, a genesis first
miniblock (0) makes every requested key resolve to absent, and otherwise the
result is exactly `get_storage_values` at the miniblock immediately preceding
the batch's first miniblock — a result unchanged by discarding every log entry
of that batch or any later block. -/
theorem get_previous_storage_values_spec (logs : List LogEntry)
    (resolver : Nat → Option (Nat × Nat)) (hashed_keys : List Nat)
    (next_l1_batch first_miniblock last_miniblock : Nat)
    (hres : resolver next_l1_batch = some (first_miniblock, last_miniblock)) :
    (first_miniblock = 0 →
      get_previous_storage_values logs resolver hashed_keys next_l1_batch =
        some (hashed_keys.map fun k => (k, none))) ∧
    (0 < first_miniblock →
      get_previous_storage_values logs resolver hashed_keys next_l1_batch =
        some (get_storage_values logs hashed_keys (first_miniblock - 1)) ∧
      get_storage_values logs hashed_keys (first_miniblock - 1) =
        get_storage_values
          (logs.filter fun e => decide (e.miniblock_number < first_miniblock))
          hashed_keys (first_miniblock - 1)) := by
  constructor
  · intro h0
    simp [get_previous_storage_values, hres, h0]
  · intro hpos
    constructor
    · simp [get_previous_storage_values, hres, Nat.pos_iff_ne_zero.mp hpos]
    · simp only [get_storage_values]
      apply List.map_congr_left
      intro a _
      simp only [resolveValue, latestLogAt_filter_lt logs first_miniblock a hpos]

/-- Witness for C3: batch 2 starts at miniblock 3, so resolution happens at
miniblock 2 and the batch's own write is visible only up to there. -/
theorem get_previous_storage_values_spec_witness :
    get_previous_storage_values [⟨1, 5, 2, 0, 0⟩]
        (fun b => if b = 2 then some (3, 4) else none) [1] 2 =
      some (get_storage_values [⟨1, 5, 2, 0, 0⟩] [1] 2) :=
  ((get_previous_storage_values_spec [⟨1, 5, 2, 0, 0⟩]
      (fun b => if b = 2 then some (3, 4) else none) [1] 2 3 4 (by decide)).2
    (by decide)).1

/-! ### Lemmas about the revert-plan construction -/

theorem mem_modified_keys_since_miniblock (logs : List LogEntry) (n k : Nat) :
    k ∈ modified_keys_since_miniblock logs n ↔
      ∃ e ∈ logs, e.hashed_key = k ∧ n < e.miniblock_number := by
  simp only [modified_keys_since_miniblock, List.mem_dedup, List.mem_map,
    List.mem_filter, decide_eq_true_eq]
  constructor
  · rintro ⟨e, ⟨hmem, hgt⟩, rfl⟩
    exact ⟨e, hmem, rfl, hgt⟩
  · rintro ⟨e, hmem, rfl, hgt⟩
    exact ⟨e, ⟨hmem, hgt⟩, rfl⟩

theorem deleteEntryFor_fst (iw : List InitialWrite) (b k : Nat)
    (p : Nat × Option (Nat × Nat)) (h : deleteEntryFor iw b k = some p) :
    p.1 = k := by
  rcases hf : firstWriteOf iw k with _ | ⟨qb, qi⟩ <;>
    simp only [deleteEntryFor, hf] at h
  · cases h
  · split at h
    · simp only [Option.some.injEq] at h
      rw [← h]
    · cases h

theorem lookup_revertDeletes (iw : List InitialWrite) (b : Nat) (keys : List Nat)
    (k : Nat) :
    List.lookup k (revertDeletes iw b keys) =
      if k ∈ keys then Option.map Prod.snd (deleteEntryFor iw b k) else none := by
  induction keys with
  | nil => simp [revertDeletes]
  | cons a rest ih =>
    by_cases hak : k = a
    · subst hak
      rcases hd : deleteEntryFor iw b k with _ | p
      · simp only [revertDeletes, List.filterMap_cons, hd] at *
        rw [ih]
        by_cases hkr : k ∈ rest <;> simp [hkr, hd]
      · have hp := deleteEntryFor_fst iw b k p hd
        obtain ⟨p1, p2⟩ := p
        simp only at hp
        subst hp
        simp only [revertDeletes, List.filterMap_cons, hd]
        simp [List.lookup, hd]
    · have hne : (k == a) = false := beq_eq_false_iff_ne.mpr hak
      rcases hd : deleteEntryFor iw b a with _ | p
      · simp only [revertDeletes, List.filterMap_cons, hd] at *
        rw [ih]
        simp [List.mem_cons, hak]
      · have hp := deleteEntryFor_fst iw b a p hd
        simp only [revertDeletes, List.filterMap_cons, hd] at *
        have : List.lookup k (p :: List.filterMap (deleteEntryFor iw b) rest) =
            List.lookup k (List.filterMap (deleteEntryFor iw b) rest) := by
          obtain ⟨p1, p2⟩ := p
          simp only at hp
          subst hp
          simp [List.lookup, hne]
        rw [this, ih]
        simp [List.mem_cons, hak]

theorem isRestoreKey_iff (iw : List InitialWrite) (b k : Nat) :
    isRestoreKey iw b k = true ↔
      ∃ wb idx, firstWriteOf iw k = some (wb, idx) ∧ wb ≤ b := by
  rcases hf : firstWriteOf iw k with _ | ⟨wb, idx⟩ <;>
    simp only [isRestoreKey, hf]
  · simp
  · simp only [decide_eq_true_eq, Option.some.injEq, Prod.mk.injEq]
    constructor
    · intro h
      exact ⟨wb, idx, ⟨rfl, rfl⟩, h⟩
    · rintro ⟨wb', idx', ⟨h1, h2⟩, hle⟩
      omega

theorem mem_revertRestoreKeys (iw : List InitialWrite) (b : Nat)
    (keys : List Nat) (k : Nat) :
    k ∈ revertRestoreKeys iw b keys ↔ k ∈ keys ∧ isRestoreKey iw b k = true := by
  simp [revertRestoreKeys, List.mem_filter]

theorem revertRestores_lookup (logs : List LogEntry) (iw : List InitialWrite)
    (last_miniblock : Nat) (keys : List Nat)
    (l : List (Nat × Option (Nat × Nat)))
    (h : revertRestores logs iw last_miniblock keys = some l) (k : Nat) :
    (k ∈ keys → ∃ v wb idx, resolveValue logs last_miniblock k = some v ∧
      firstWriteOf iw k = some (wb, idx) ∧
      List.lookup k l = some (some (v, idx))) ∧
    (k ∉ keys → List.lookup k l = none) := by
  induction keys generalizing l with
  | nil =>
    simp only [revertRestores, Option.some.injEq] at h
    subst h
    exact ⟨fun hk => absurd hk (List.not_mem_nil k), fun _ => rfl⟩
  | cons a rest ih =>
    rcases hv : resolveValue logs last_miniblock a with _ | v <;>
      rcases hf : firstWriteOf iw a with _ | ⟨wb, idx⟩ <;>
      simp only [revertRestores, hv, hf] at h
    · cases h
    · cases h
    · cases h
    rcases Option.map_eq_some'.mp h with ⟨l', hl', rfl⟩
    obtain ⟨ihin, ihout⟩ := ih l' hl'
    constructor
    · intro hk
      by_cases hak : k = a
      · subst hak
        exact ⟨v, wb, idx, hv, hf, by simp [List.lookup]⟩
      · have hne : (k == a) = false := beq_eq_false_iff_ne.mpr hak
        obtain ⟨v', wb', idx', hv', hf', hl''⟩ :=
          ihin (by rcases List.mem_cons.mp hk with h' | h'; exact absurd h' hak; exact h')
        exact ⟨v', wb', idx', hv', hf', by simp [List.lookup, hne, hl'']⟩
    · intro hk
      have hka : k ≠ a := fun h' => hk (h' ▸ List.mem_cons_self a rest)
      have hne : (k == a) = false := beq_eq_false_iff_ne.mpr hka
      have hkr : k ∉ rest := fun h' => hk (List.mem_cons_of_mem a h')
      simp [List.lookup, hne, ihout hkr]

theorem revertRestores_none_of_missing (logs : List LogEntry)
    (iw : List InitialWrite) (last_miniblock : Nat) (keys : List Nat) (k : Nat)
    (hk : k ∈ keys) (hv : resolveValue logs last_miniblock k = none) :
    revertRestores logs iw last_miniblock keys = none := by
  induction keys with
  | nil => cases hk
  | cons a rest ih =>
    rcases List.mem_cons.mp hk with rfl | hk2
    · simp [revertRestores, hv]
    · rcases hv' : resolveValue logs last_miniblock a with _ | v <;>
        rcases hf : firstWriteOf iw a with _ | ⟨wb, idx⟩ <;>
        simp only [revertRestores, hv', hf]
      rw [ih hk2]
      rfl

theorem lookup_append_assoc {β : Type} (l1 l2 : List (Nat × β)) (k : Nat) :
    List.lookup k (l1 ++ l2) =
      match List.lookup k l1 with
      | some v => some v
      | none => List.lookup k l2 := by
  induction l1 with
  | nil => simp [List.lookup]
  | cons p rest ih =>
    obtain ⟨a, b⟩ := p
    by_cases hk : k = a
    · subst hk
      simp [List.lookup]
    · have hne : (k == a) = false := beq_eq_false_iff_ne.mpr hk
      simp [List.lookup, hne, ih]

/-! ### Claim theorems: the revert planner -/

/-- C1: the revert plan of `get_storage_logs_for_revert`. With no miniblock
range for the target batch the plan is empty. Otherwise, whenever the call
returns a plan, a key with no log entry beyond the batch's last miniblock is
absent from the plan; a modified key with no dedup record is absent; a
modified key first written after the target batch maps to `none` (delete); and
a modified key first written at or before the target batch maps to its value
at the batch's last miniblock paired with its dedup leaf index. -/
theorem get_storage_logs_for_revert_plan (logs : List LogEntry)
    (iw : List InitialWrite) (resolver : Nat → Option (Nat × Nat))
    (l1_batch_number : Nat) :
    (resolver l1_batch_number = none →
      get_storage_logs_for_revert logs iw resolver l1_batch_number = some []) ∧
    (∀ first_miniblock last_miniblock plan,
      resolver l1_batch_number = some (first_miniblock, last_miniblock) →
      get_storage_logs_for_revert logs iw resolver l1_batch_number = some plan →
      ∀ k,
        ((¬ ∃ e ∈ logs, e.hashed_key = k ∧ last_miniblock < e.miniblock_number) →
          List.lookup k plan = none) ∧
        ((∃ e ∈ logs, e.hashed_key = k ∧ last_miniblock < e.miniblock_number) →
          (firstWriteOf iw k = none → List.lookup k plan = none) ∧
          (∀ wb idx, firstWriteOf iw k = some (wb, idx) →
            (l1_batch_number < wb → List.lookup k plan = some none) ∧
            (wb ≤ l1_batch_number →
              ∃ v, resolveValue logs last_miniblock k = some v ∧
                List.lookup k plan = some (some (v, idx)))))) := by
  constructor
  · intro h
    simp [get_storage_logs_for_revert, h]
  · intro first_miniblock last_miniblock plan hres hplan k
    rcases hrr : revertRestores logs iw last_miniblock
        (revertRestoreKeys iw l1_batch_number
          (modified_keys_since_miniblock logs last_miniblock)) with _ | restores <;>
      simp only [get_storage_logs_for_revert, hres, hrr, Option.some.injEq] at hplan
    · cases hplan
    subst hplan
    have hrl := revertRestores_lookup logs iw last_miniblock _ restores hrr k
    constructor
    · intro hno
      have hkM : k ∉ modified_keys_since_miniblock logs last_miniblock := by
        rw [mem_modified_keys_since_miniblock]
        exact hno
      have hd : List.lookup k (revertDeletes iw l1_batch_number
          (modified_keys_since_miniblock logs last_miniblock)) = none := by
        rw [lookup_revertDeletes, if_neg hkM]
      have hr : List.lookup k restores = none := by
        apply hrl.2
        intro hk
        exact hkM ((mem_revertRestoreKeys _ _ _ _).mp hk).1
      rw [lookup_append_assoc, hd, hr]
    · intro hyes
      have hkM : k ∈ modified_keys_since_miniblock logs last_miniblock := by
        rw [mem_modified_keys_since_miniblock]
        exact hyes
      constructor
      · intro hfw
        have hd : List.lookup k (revertDeletes iw l1_batch_number
            (modified_keys_since_miniblock logs last_miniblock)) = none := by
          rw [lookup_revertDeletes, if_pos hkM]
          simp [deleteEntryFor, hfw]
        have hr : List.lookup k restores = none := by
          apply hrl.2
          intro hk
          have := ((mem_revertRestoreKeys _ _ _ _).mp hk).2
          rw [isRestoreKey_iff] at this
          obtain ⟨wb, idx, hsome, _⟩ := this
          rw [hfw] at hsome
          cases hsome
        rw [lookup_append_assoc, hd, hr]
      · intro wb idx hfw
        constructor
        · intro hgt
          have hd : List.lookup k (revertDeletes iw l1_batch_number
              (modified_keys_since_miniblock logs last_miniblock)) = some none := by
            rw [lookup_revertDeletes, if_pos hkM]
            simp [deleteEntryFor, hfw, hgt]
          rw [lookup_append_assoc, hd]
        · intro hle
          have hd : List.lookup k (revertDeletes iw l1_batch_number
              (modified_keys_since_miniblock logs last_miniblock)) = none := by
            rw [lookup_revertDeletes, if_pos hkM]
            simp [deleteEntryFor, hfw]
            omega
          have hkR : k ∈ revertRestoreKeys iw l1_batch_number
              (modified_keys_since_miniblock logs last_miniblock) := by
            rw [mem_revertRestoreKeys]
            exact ⟨hkM, (isRestoreKey_iff _ _ _).mpr ⟨wb, idx, hfw, hle⟩⟩
          obtain ⟨v, wb', idx', hv, hf', hl'⟩ := hrl.1 hkR
          rw [hfw] at hf'
          simp only [Option.some.injEq, Prod.mk.injEq] at hf'
          refine ⟨v, hv, ?_⟩
          rw [lookup_append_assoc, hd, hl', hf'.2]

/-- Witness for C1: reverting to batch 1 on the fixture ledger restores key 1
to its value at miniblock 1 paired with its leaf index. -/
theorem get_storage_logs_for_revert_plan_witness :
    ∃ v, resolveValue demoRevertLogs 1 1 = some v ∧
      List.lookup 1 [((2 : Nat), (none : Option (Nat × Nat))),
        (1, some (10, 100))] = some (some (v, 100)) :=
  ((((get_storage_logs_for_revert_plan demoRevertLogs demoRevertIW demoResolver
        1).2 1 1 [(2, none), (1, some (10, 100))] (by decide) (by decide) 1).2
      ⟨⟨1, 20, 2, 0, 0⟩, by decide, rfl, by decide⟩).2 1 100 (by decide)).2
    (by decide)

/-- C7: during revert planning, a restore-classified key (dedup batch at most
the target) whose value at the target batch's last retained miniblock resolves
to absent makes the whole operation panic (modelled as `none`): no partial or
defaulted plan is returned. -/
theorem get_storage_logs_for_revert_aborts_on_missing_value
    (logs : List LogEntry) (iw : List InitialWrite)
    (resolver : Nat → Option (Nat × Nat))
    (l1_batch_number first_miniblock last_miniblock k wb idx : Nat)
    (hres : resolver l1_batch_number = some (first_miniblock, last_miniblock))
    (hmod : k ∈ modified_keys_since_miniblock logs last_miniblock)
    (hfw : firstWriteOf iw k = some (wb, idx))
    (hle : wb ≤ l1_batch_number)
    (hval : resolveValue logs last_miniblock k = none) :
    get_storage_logs_for_revert logs iw resolver l1_batch_number = none := by
  have hk : k ∈ revertRestoreKeys iw l1_batch_number
      (modified_keys_since_miniblock logs last_miniblock) := by
    rw [mem_revertRestoreKeys]
    exact ⟨hmod, (isRestoreKey_iff _ _ _).mpr ⟨wb, idx, hfw, hle⟩⟩
  simp only [get_storage_logs_for_revert, hres,
    revertRestores_none_of_missing logs iw last_miniblock _ k hk hval]

/-- Witness for C7: key 1 has a dedup record in batch 0 but its only log entry
sits at miniblock 5, so restoring it at miniblock 0 finds no value and the
plan computation aborts. -/
theorem get_storage_logs_for_revert_aborts_on_missing_value_witness :
    get_storage_logs_for_revert [⟨1, 9, 5, 0, 0⟩] [⟨1, 0, 7⟩]
      (fun b => if b = 0 then some (0, 0) else none) 0 = none :=
  get_storage_logs_for_revert_aborts_on_missing_value [⟨1, 9, 5, 0, 0⟩]
    [⟨1, 0, 7⟩] (fun b => if b = 0 then some (0, 0) else none) 0 0 0 1 0 7
    (by decide) (by decide) (by decide) (by decide) (by decide)

/-! ### Lemmas about appending a block of writes -/

theorem maxOpAt_le (logs : List LogEntry) (block : Nat) (e : LogEntry)
    (he : e ∈ logs) (hb : e.miniblock_number = block) :
    ∃ m, maxOpAt logs block = some m ∧ e.operation_number ≤ m := by
  induction logs with
  | nil => cases he
  | cons a rest ih =>
    rcases List.mem_cons.mp he with rfl | he2
    · rcases hr : maxOpAt rest block with _ | m
      · exact ⟨e.operation_number, by simp [maxOpAt, hb, hr, pushMax], le_refl _⟩
      · exact ⟨max m e.operation_number, by simp [maxOpAt, hb, hr, pushMax],
          le_max_right _ _⟩
    · obtain ⟨m, hm, hle⟩ := ih he2
      by_cases ha : a.miniblock_number = block
      · exact ⟨max m a.operation_number, by simp [maxOpAt, ha, hm, pushMax],
          le_trans hle (le_max_left _ _)⟩
      · exact ⟨m, by simp [maxOpAt, ha, hm], hle⟩

theorem old_op_lt_appendBase (logs : List LogEntry) (block : Nat) (e : LogEntry)
    (he : e ∈ logs) (hb : e.miniblock_number = block) :
    e.operation_number < appendBase logs block := by
  obtain ⟨m, hm, hle⟩ := maxOpAt_le logs block e he hb
  simp only [appendBase, hm]
  omega

theorem numberWrites_ops (block base : Nat) (ws : List (Nat × Write)) :
    (numberWrites block base ws).map (fun e => e.operation_number) =
      List.range' base ws.length := by
  induction ws generalizing base with
  | nil => rfl
  | cons p rest ih =>
    obtain ⟨tx, w⟩ := p
    simp [numberWrites, mkEntry, List.range'_succ, ih (base + 1)]

theorem latestLogAt_snoc (logs : List LogEntry) (E : LogEntry) (block k : Nat)
    (hE : E.miniblock_number = block)
    (hbase : ∀ e ∈ logs, e.miniblock_number = block →
      e.operation_number < E.operation_number) :
    latestLogAt (logs ++ [E]) block k =
      if E.hashed_key = k then some E else latestLogAt logs block k := by
  induction logs with
  | nil =>
    by_cases hk : E.hashed_key = k
    · simp [latestLogAt, hk, hE, pickLater]
    · simp [latestLogAt, hk, hE]
  | cons a rest ih =>
    have hbase' : ∀ e ∈ rest, e.miniblock_number = block →
        e.operation_number < E.operation_number :=
      fun e he => hbase e (List.mem_cons_of_mem a he)
    rw [List.cons_append]
    by_cases hak : a.hashed_key = k ∧ a.miniblock_number ≤ block
    · simp only [latestLogAt, if_pos hak, ih hbase']
      by_cases hk : E.hashed_key = k
      · rw [if_pos hk, if_pos hk]
        have hnot : ¬ logPosLt E a := by
          have ha := hak.2
          by_cases hab : a.miniblock_number = block
          · have := hbase a (List.mem_cons_self a rest) hab
            simp only [logPosLt]
            omega
          · simp only [logPosLt]
            omega
        simp [pickLater, hnot]
      · rw [if_neg hk, if_neg hk]
    · simp only [latestLogAt, if_neg hak, ih hbase']

theorem resolveValue_snoc (logs : List LogEntry) (E : LogEntry) (block k : Nat)
    (hE : E.miniblock_number = block)
    (hbase : ∀ e ∈ logs, e.miniblock_number = block →
      e.operation_number < E.operation_number) :
    resolveValue (logs ++ [E]) block k =
      if E.hashed_key = k then some E.value else resolveValue logs block k := by
  rw [resolveValue, latestLogAt_snoc logs E block k hE hbase]
  by_cases hk : E.hashed_key = k <;> simp [hk, resolveValue]

theorem resolve_append_numbered (block k : Nat) (ws : List (Nat × Write)) :
    ∀ (logs : List LogEntry) (base : Nat),
    (∀ e ∈ logs, e.miniblock_number = block → e.operation_number < base) →
    resolveValue (logs ++ numberWrites block base ws) block k =
      match lastValueIn ws k with
      | some v => some v
      | none => resolveValue logs block k := by
  induction ws with
  | nil =>
    intro logs base hbase
    simp [numberWrites, lastValueIn]
  | cons p rest ih =>
    intro logs base hbase
    obtain ⟨tx, w⟩ := p
    have hassoc : logs ++ numberWrites block base ((tx, w) :: rest) =
        (logs ++ [mkEntry tx w block base]) ++ numberWrites block (base + 1) rest := by
      simp [numberWrites]
    rw [hassoc]
    have hbase' : ∀ e ∈ logs ++ [mkEntry tx w block base],
        e.miniblock_number = block → e.operation_number < base + 1 := by
      intro e he hb
      rcases List.mem_append.mp he with h1 | h1
      · exact Nat.lt_succ_of_lt (hbase e h1 hb)
      · rcases List.mem_cons.mp h1 with rfl | h2
        · exact Nat.lt_succ_self _
        · cases h2
    rw [ih _ (base + 1) hbase']
    rcases hlv : lastValueIn rest k with _ | v
    · rw [resolveValue_snoc logs (mkEntry tx w block base) block k rfl
        (fun e he hb => hbase e he hb)]
      simp only [lastValueIn, hlv, mkEntry]
      by_cases hk : w.hashed_key = k <;> simp [hk]
    · simp only [lastValueIn, hlv]

theorem lastValueIn_mem (ws : List (Nat × Write)) (k : Nat) :
    ∀ v, lastValueIn ws k = some v → k ∈ ws.map fun p => p.2.hashed_key := by
  induction ws with
  | nil =>
    intro v h
    cases h
  | cons p rest ih =>
    intro v h
    obtain ⟨tx, w⟩ := p
    rcases hlv : lastValueIn rest k with _ | v' <;>
      simp only [lastValueIn, hlv] at h
    · split at h
      · simp only [List.map_cons, List.mem_cons]
        exact Or.inl (by simp_all)
      · cases h
    · simp only [List.map_cons, List.mem_cons]
      exact Or.inr (ih v' hlv)

theorem lastValueIn_isSome (ws : List (Nat × Write)) (k : Nat)
    (hk : k ∈ ws.map fun p => p.2.hashed_key) :
    ∃ v, lastValueIn ws k = some v := by
  induction ws with
  | nil => cases hk
  | cons p rest ih =>
    obtain ⟨tx, w⟩ := p
    by_cases hkr : k ∈ rest.map fun p => p.2.hashed_key
    · obtain ⟨v, hv⟩ := ih hkr
      exact ⟨v, by simp [lastValueIn, hv]⟩
    · have hw : w.hashed_key = k := by
        rcases List.mem_map.mp hk with ⟨q, hq, hqk⟩
        rcases List.mem_cons.mp hq with rfl | hq2
        · exact hqk
        · exact absurd (List.mem_map.mpr ⟨q, hq2, hqk⟩) hkr
      have hnone : lastValueIn rest k = none := by
        rcases hlv : lastValueIn rest k with _ | v
        · rfl
        · exact absurd (lastValueIn_mem rest k v hlv) hkr
      exact ⟨w.value, by simp [lastValueIn, hnone, hw]⟩

/-! ### Claim theorem: the append / resolve round trip -/

/-- C4: appending the writes of a block (operation numbers assigned
consecutively from 0 for a fresh block, or from one past the block's current
maximum) and then resolving a written key at that block returns the value of
that key's last write in the appended sequence. -/
theorem append_storage_logs_round_trip (logs : List LogEntry)
    (block_number : Nat) (txs : List (Nat × List Write)) (keys : List Nat)
    (k : Nat) (hkeys : k ∈ keys)
    (hwritten : k ∈ (flattenWrites txs).map fun p => p.2.hashed_key) :
    (∃ v, lastValueIn (flattenWrites txs) k = some v ∧
      List.lookup k (get_storage_values
        (append_storage_logs logs block_number txs) keys block_number) =
        some (some v)) ∧
    ((append_storage_logs logs block_number txs).map
        (fun e => e.operation_number)).drop logs.length =
      List.range' (appendBase logs block_number) (flattenWrites txs).length ∧
    (maxOpAt logs block_number = none → appendBase logs block_number = 0) ∧
    (∀ m, maxOpAt logs block_number = some m →
      appendBase logs block_number = m + 1) := by
  refine ⟨?_, ?_, ?_, ?_⟩
  · obtain ⟨v, hv⟩ := lastValueIn_isSome (flattenWrites txs) k hwritten
    refine ⟨v, hv, ?_⟩
    rw [lookup_get_storage_values _ keys block_number k hkeys]
    show some (resolveValue
      (logs ++ numberWrites block_number (appendBase logs block_number)
        (flattenWrites txs)) block_number k) = some (some v)
    rw [resolve_append_numbered block_number k (flattenWrites txs) logs
      (appendBase logs block_number)
      (fun e he hb => old_op_lt_appendBase logs block_number e he hb), hv]
  · show ((logs ++ numberWrites block_number (appendBase logs block_number)
        (flattenWrites txs)).map (fun e => e.operation_number)).drop logs.length =
      List.range' (appendBase logs block_number) (flattenWrites txs).length
    rw [List.map_append]
    rw [show logs.length = (logs.map fun e => e.operation_number).length by simp]
    rw [List.drop_left]
    exact numberWrites_ops block_number (appendBase logs block_number)
      (flattenWrites txs)
  · intro h
    simp [appendBase, h]
  · intro m h
    simp [appendBase, h]

/-- Witness for C4: on a block that already holds an operation, appending two
transactions (key 1 written twice, then key 2) and resolving key 1 at that
block yields the value of key 1's last appended write. -/
theorem append_storage_logs_round_trip_witness :
    ∃ v, lastValueIn (flattenWrites [(0, [⟨1, 10⟩, ⟨1, 20⟩]), (1, [⟨2, 30⟩])]) 1 =
        some v ∧
      List.lookup 1 (get_storage_values
        (append_storage_logs [⟨1, 5, 1, 0, 0⟩] 1
          [(0, [⟨1, 10⟩, ⟨1, 20⟩]), (1, [⟨2, 30⟩])]) [1, 2] 1) = some (some v) :=
  (append_storage_logs_round_trip [⟨1, 5, 1, 0, 0⟩] 1
    [(0, [⟨1, 10⟩, ⟨1, 20⟩]), (1, [⟨2, 30⟩])] [1, 2] 1 (by decide) (by decide)).1

/-! ### Lemmas about the chunk-start scanner -/

theorem keyLexLt_irrefl (a : LogEntry) : ¬ keyLexLt a a := by
  simp only [keyLexLt]
  omega

theorem keyLexLt_trans {a b c : LogEntry} (h1 : keyLexLt a b) (h2 : keyLexLt b c) :
    keyLexLt a c := by
  simp only [keyLexLt] at *
  omega

theorem pickSmaller_ne_none (e : LogEntry) (r : Option LogEntry) :
    pickSmaller e r ≠ none := by
  cases r with
  | none => simp [pickSmaller]
  | some m =>
    simp only [pickSmaller]
    split <;> simp

theorem smallestLogIn_spec (n lo hi : Nat) (logs : List LogEntry) :
    (smallestLogIn logs n lo hi = none →
      ∀ e ∈ logs, ¬(e.miniblock_number = n ∧ lo ≤ e.hashed_key ∧ e.hashed_key ≤ hi)) ∧
    (∀ m, smallestLogIn logs n lo hi = some m →
      (m ∈ logs ∧ m.miniblock_number = n ∧ lo ≤ m.hashed_key ∧ m.hashed_key ≤ hi) ∧
      ∀ e ∈ logs, e.miniblock_number = n → lo ≤ e.hashed_key → e.hashed_key ≤ hi →
        ¬ keyLexLt e m) := by
  induction logs with
  | nil => simp [smallestLogIn]
  | cons e rest ih =>
    obtain ⟨ihnone, ihsome⟩ := ih
    constructor
    · intro h
      simp only [smallestLogIn] at h
      by_cases hc : e.miniblock_number = n ∧ lo ≤ e.hashed_key ∧ e.hashed_key ≤ hi
      · rw [if_pos hc] at h
        exact absurd h (pickSmaller_ne_none _ _)
      · rw [if_neg hc] at h
        intro x hx
        rcases List.mem_cons.mp hx with rfl | hx
        · exact hc
        · exact ihnone h x hx
    · intro m h
      simp only [smallestLogIn] at h
      by_cases hc : e.miniblock_number = n ∧ lo ≤ e.hashed_key ∧ e.hashed_key ≤ hi
      · rw [if_pos hc] at h
        rcases hr : smallestLogIn rest n lo hi with _ | m' <;> rw [hr] at h
        · simp only [pickSmaller, Option.some.injEq] at h
          subst h
          refine ⟨⟨List.mem_cons_self _ _, hc⟩, ?_⟩
          intro x hx hxn hxlo hxhi
          rcases List.mem_cons.mp hx with rfl | hx
          · exact keyLexLt_irrefl _
          · exact fun _ => ihnone hr x hx ⟨hxn, hxlo, hxhi⟩
        · simp only [pickSmaller] at h
          by_cases hlt : keyLexLt e m'
          · rw [if_pos hlt] at h
            simp only [Option.some.injEq] at h
            subst h
            obtain ⟨⟨hm'mem, hm'p⟩, hmin'⟩ := ihsome m' hr
            refine ⟨⟨List.mem_cons_self _ _, hc⟩, ?_⟩
            intro x hx hxn hxlo hxhi hcon
            rcases List.mem_cons.mp hx with rfl | hx
            · exact keyLexLt_irrefl _ hcon
            · exact hmin' x hx hxn hxlo hxhi (keyLexLt_trans hcon hlt)
          · rw [if_neg hlt] at h
            simp only [Option.some.injEq] at h
            subst h
            obtain ⟨⟨hm'mem, hm'p⟩, hmin'⟩ := ihsome m' hr
            refine ⟨⟨List.mem_cons_of_mem _ hm'mem, hm'p⟩, ?_⟩
            intro x hx hxn hxlo hxhi
            rcases List.mem_cons.mp hx with rfl | hx
            · exact hlt
            · exact hmin' x hx hxn hxlo hxhi
      · rw [if_neg hc] at h
        obtain ⟨⟨hmem, hp⟩, hmin⟩ := ihsome m h
        refine ⟨⟨List.mem_cons_of_mem _ hmem, hp⟩, ?_⟩
        intro x hx hxn hxlo hxhi
        rcases List.mem_cons.mp hx with rfl | hx
        · exact fun _ => hc ⟨hxn, hxlo, hxhi⟩
        · exact hmin x hx hxn hxlo hxhi

theorem chunkStart_none_of_empty (logs : List LogEntry) (iw : List InitialWrite)
    (n : Nat) (r : Nat × Nat)
    (h : ∀ e ∈ logs, ¬(e.miniblock_number = n ∧ r.1 ≤ e.hashed_key ∧
      e.hashed_key ≤ r.2)) :
    chunkStart logs iw n r = none := by
  rcases hmin : smallestLogIn logs n r.1 r.2 with _ | m
  · simp [chunkStart, hmin]
  · obtain ⟨⟨hmem, hp⟩, _⟩ := (smallestLogIn_spec n r.1 r.2 logs).2 m hmin
    exact absurd hp (h m hmem)

theorem chunkStart_some (logs : List LogEntry) (iw : List InitialWrite)
    (n : Nat) (r : Nat × Nat) (x : StorageRecoveryLogEntry)
    (h : chunkStart logs iw n r = some x) :
    ∃ e ∈ logs, e.miniblock_number = n ∧ r.1 ≤ e.hashed_key ∧
      e.hashed_key ≤ r.2 ∧ x.key = e.hashed_key ∧ x.value = e.value ∧
      (∀ e2 ∈ logs, e2.miniblock_number = n → r.1 ≤ e2.hashed_key →
        e2.hashed_key ≤ r.2 → e.hashed_key ≤ e2.hashed_key) ∧
      ∃ wb, firstWriteOf iw e.hashed_key = some (wb, x.leaf_index) := by
  rcases hmin : smallestLogIn logs n r.1 r.2 with _ | m
  · simp [chunkStart, hmin] at h
  · simp only [chunkStart, hmin] at h
    rcases hfw : firstWriteOf iw m.hashed_key with _ | ⟨wb, idx⟩ <;>
      rw [hfw] at h
    · cases h
    · simp only [Option.some.injEq] at h
      subst h
      obtain ⟨⟨hmem, hn, hlo, hhi⟩, hmin'⟩ :=
        (smallestLogIn_spec n r.1 r.2 logs).2 m hmin
      refine ⟨m, hmem, hn, hlo, hhi, rfl, rfl, ?_, wb, hfw⟩
      intro e2 h2 hn2 hlo2 hhi2
      have hnl := hmin' e2 h2 hn2 hlo2 hhi2
      simp only [keyLexLt] at hnl
      omega

/-! ### Claim theorems: chunk starts -/

/-- C5 counterexample: key 5 was written at miniblock 0 — hence "ever written
by miniblock 1" — lies inside the range `[0, 10]` and has a dedup record, yet
the chunk start for that range at miniblock 1 is absent, because the query
filters on the exact miniblock number rather than all entries up to it. -/
theorem get_chunk_starts_for_miniblock_counterexample :
    get_chunk_starts_for_miniblock [⟨5, 7, 0, 0, 0⟩] [⟨5, 0, 1⟩] 1 [(0, 10)] =
      [none] ∧
    (⟨5, 7, 0, 0, 0⟩ : LogEntry) ∈ [(⟨5, 7, 0, 0, 0⟩ : LogEntry)] ∧
    (⟨5, 7, 0, 0, 0⟩ : LogEntry).miniblock_number ≤ 1 ∧
    0 ≤ (⟨5, 7, 0, 0, 0⟩ : LogEntry).hashed_key ∧
    (⟨5, 7, 0, 0, 0⟩ : LogEntry).hashed_key ≤ 10 ∧
    firstWriteOf [⟨5, 0, 1⟩] 5 = some (0, 1) := by
  decide

/-- C5 (amended): for sorted, disjoint key ranges,
`get_chunk_starts_for_miniblock` returns one result per range; each range's
result is the smallest-keyed log entry written exactly at the given miniblock
within the range, joined with its dedup leaf index, and is absent when no key
in the range has an entry at exactly that miniblock (or when the smallest such
entry's key lacks a dedup record); present keys stay within their own range
and strictly increase in range order. -/
theorem get_chunk_starts_for_miniblock_amended (logs : List LogEntry)
    (iw : List InitialWrite) (miniblock_number : Nat)
    (key_ranges : List (Nat × Nat))
    (hranges : key_ranges.Pairwise fun r s => r.2 < s.1) :
    (get_chunk_starts_for_miniblock logs iw miniblock_number key_ranges).length =
      key_ranges.length ∧
    (∀ (i : Nat) (r : Nat × Nat), key_ranges[i]? = some r →
      (get_chunk_starts_for_miniblock logs iw miniblock_number key_ranges)[i]? =
        some (chunkStart logs iw miniblock_number r) ∧
      ((∀ e ∈ logs, ¬(e.miniblock_number = miniblock_number ∧
          r.1 ≤ e.hashed_key ∧ e.hashed_key ≤ r.2)) →
        chunkStart logs iw miniblock_number r = none) ∧
      (∀ x, chunkStart logs iw miniblock_number r = some x →
        ∃ e ∈ logs, e.miniblock_number = miniblock_number ∧
          r.1 ≤ e.hashed_key ∧ e.hashed_key ≤ r.2 ∧
          x.key = e.hashed_key ∧ x.value = e.value ∧
          (∀ e2 ∈ logs, e2.miniblock_number = miniblock_number →
            r.1 ≤ e2.hashed_key → e2.hashed_key ≤ r.2 →
            e.hashed_key ≤ e2.hashed_key) ∧
          ∃ wb, firstWriteOf iw e.hashed_key = some (wb, x.leaf_index))) ∧
    (∀ (i j : Nat) (ri rj : Nat × Nat) (a b : StorageRecoveryLogEntry), i < j →
      key_ranges[i]? = some ri → key_ranges[j]? = some rj →
      chunkStart logs iw miniblock_number ri = some a →
      chunkStart logs iw miniblock_number rj = some b →
      a.key < b.key) := by
  refine ⟨by simp [get_chunk_starts_for_miniblock], ?_, ?_⟩
  · intro i r hi
    refine ⟨?_, chunkStart_none_of_empty logs iw miniblock_number r,
      chunkStart_some logs iw miniblock_number r⟩
    simp [get_chunk_starts_for_miniblock, hi]
  · intro i j ri rj a b hij hi hj ha hb
    obtain ⟨hilt, hieq⟩ := List.getElem?_eq_some_iff.mp hi
    obtain ⟨hjlt, hjeq⟩ := List.getElem?_eq_some_iff.mp hj
    have hsep : ri.2 < rj.1 := by
      have hp := List.pairwise_iff_getElem.mp hranges i j hilt hjlt hij
      rw [hieq, hjeq] at hp
      exact hp
    obtain ⟨e1, _, _, h1lo, h1hi, h1key, _, _, _⟩ :=
      chunkStart_some logs iw miniblock_number ri a ha
    obtain ⟨e2, _, _, h2lo, h2hi, h2key, _, _, _⟩ :=
      chunkStart_some logs iw miniblock_number rj b hb
    omega

/-- Witness for C5 (amended) on two disjoint sorted ranges. -/
theorem get_chunk_starts_for_miniblock_amended_witness :
    (get_chunk_starts_for_miniblock [⟨3, 30, 1, 0, 0⟩, ⟨8, 80, 1, 1, 0⟩]
      [⟨3, 1, 1⟩, ⟨8, 1, 2⟩] 1 [(0, 4), (6, 10)]).length = 2 :=
  (get_chunk_starts_for_miniblock_amended [⟨3, 30, 1, 0, 0⟩, ⟨8, 80, 1, 1, 0⟩]
    [⟨3, 1, 1⟩, ⟨8, 1, 2⟩] 1 [(0, 4), (6, 10)] (by decide)).1

/-! ### Lemmas about the ordered tree-entry listing -/

theorem mem_insertByKey (x y : StorageRecoveryLogEntry)
    (l : List StorageRecoveryLogEntry) :
    y ∈ insertByKey x l ↔ y = x ∨ y ∈ l := by
  induction l with
  | nil => simp [insertByKey]
  | cons a rest ih =>
    simp only [insertByKey]
    split
    · simp [List.mem_cons]
    · simp only [List.mem_cons, ih]
      tauto

theorem sorted_insertByKey (x : StorageRecoveryLogEntry)
    (l : List StorageRecoveryLogEntry)
    (hl : l.Pairwise fun a b => a.key ≤ b.key) :
    (insertByKey x l).Pairwise fun a b => a.key ≤ b.key := by
  induction l with
  | nil => simp [insertByKey]
  | cons a rest ih =>
    rcases List.pairwise_cons.mp hl with ⟨ha, hrest⟩
    simp only [insertByKey]
    split
    · refine List.pairwise_cons.mpr ⟨?_, hl⟩
      intro b hb
      rcases List.mem_cons.mp hb with rfl | hb2
      · assumption
      · exact le_trans (by assumption) (ha b hb2)
    · refine List.pairwise_cons.mpr ⟨?_, ih hrest⟩
      intro b hb
      rcases (mem_insertByKey x b rest).mp hb with rfl | hb2
      · omega
      · exact ha b hb2

theorem sorted_sortByKey (l : List StorageRecoveryLogEntry) :
    (sortByKey l).Pairwise fun a b => a.key ≤ b.key := by
  induction l with
  | nil => simp [sortByKey]
  | cons a rest ih => exact sorted_insertByKey a (sortByKey rest) ih

theorem mem_sortByKey (x : StorageRecoveryLogEntry)
    (l : List StorageRecoveryLogEntry) :
    x ∈ sortByKey l ↔ x ∈ l := by
  induction l with
  | nil => simp [sortByKey]
  | cons a rest ih =>
    simp [sortByKey, mem_insertByKey, ih]

/-! ### Claim theorems: tree entries -/

/-- C6 counterexample: key 3 is live as of miniblock 1 (its value resolves to
9) and has a dedup record, yet it is missing from the range listing at
miniblock 1 because the query filters on the exact miniblock; and the entry
for key 5 at miniblock 1, whose key has no dedup record, is silently dropped
by the inner join — the listing is empty and no fault is raised. -/
theorem get_tree_entries_for_miniblock_counterexample :
    get_tree_entries_for_miniblock [⟨3, 9, 0, 0, 0⟩, ⟨5, 8, 1, 0, 0⟩]
      [⟨3, 0, 1⟩] 1 0 10 = [] ∧
    resolveValue [⟨3, 9, 0, 0, 0⟩, ⟨5, 8, 1, 0, 0⟩] 1 3 = some 9 ∧
    firstWriteOf [⟨3, 0, 1⟩] 3 = some (0, 1) ∧
    firstWriteOf [⟨3, 0, 1⟩] 5 = none := by
  decide

/-- C6 (amended): `get_tree_entries_for_miniblock` lists, in ascending key
order, exactly the log entries written at the given miniblock whose keys fall
in the range AND have a dedup record, each joined with its leaf index; an
in-range entry whose key lacks a dedup record is silently omitted rather than
aborting the operation. -/
theorem get_tree_entries_for_miniblock_amended (logs : List LogEntry)
    (iw : List InitialWrite) (miniblock_number lo hi : Nat) :
    (∀ x, x ∈ get_tree_entries_for_miniblock logs iw miniblock_number lo hi ↔
      ∃ e ∈ logs, e.miniblock_number = miniblock_number ∧ lo ≤ e.hashed_key ∧
        e.hashed_key ≤ hi ∧ x.key = e.hashed_key ∧ x.value = e.value ∧
        ∃ wb, firstWriteOf iw e.hashed_key = some (wb, x.leaf_index)) ∧
    (get_tree_entries_for_miniblock logs iw miniblock_number lo hi).Pairwise
      (fun a b => a.key ≤ b.key) := by
  constructor
  · intro x
    rw [get_tree_entries_for_miniblock, mem_sortByKey]
    simp only [List.mem_filterMap, List.mem_filter, decide_eq_true_eq]
    constructor
    · rintro ⟨e, ⟨hmem, hn, hlo, hhi⟩, hmap⟩
      rcases Option.map_eq_some'.mp hmap with ⟨⟨wb, idx⟩, hfw, rfl⟩
      exact ⟨e, hmem, hn, hlo, hhi, rfl, rfl, wb, hfw⟩
    · rcases x with ⟨xk, xv, xl⟩
      rintro ⟨e, hmem, hn, hlo, hhi, hxk, hxv, wb, hfw⟩
      simp only at hxk hxv
      subst hxk
      subst hxv
      refine ⟨e, ⟨hmem, hn, hlo, hhi⟩, ?_⟩
      rw [hfw]
      rfl
  · exact sorted_sortByKey _

end StorageLogs
